import Mathlib

/-!
Shallow embedding of the `circle-starks` field arithmetic
(`src/fields/basefield.rs` and `src/fields/extensionfield.rs`) together
with proofs about the embedded operations.

Machine integers are modelled as `Nat` with the `u32` wrap-around written
as an explicit `% 2^32` wherever the source's `u32` arithmetic could
overflow.  Operations that abort on a violated precondition (`assert!`)
are modelled as `Option`-valued functions returning `none` exactly where
the source panics.
-/

/-- `pub const PRIME: u32 = (1 << 31) - 1;` -/
def PRIME : Nat := 2147483647

/-- Size of the `u32` value space, used to model wrap-around. -/
def U32SIZE : Nat := 4294967296

/-- `u32` addition (wrapping model). -/
def u32add (a b : Nat) : Nat := (a + b) % U32SIZE

/-- `u32` subtraction (wrapping model): for `a, b < 2^32` this is the
two's-complement wrap of `a - b`. -/
def u32sub (a b : Nat) : Nat := (a % U32SIZE + (U32SIZE - b % U32SIZE)) % U32SIZE

/-- `pub struct BaseField(pub u32);` -/
structure BaseField where
  val : Nat
deriving DecidableEq, Repr

/-- `BaseField::new(value) = BaseField(value % PRIME)` -/
def BaseField.new (v : Nat) : BaseField := ⟨v % PRIME⟩

/-- `impl Add for BaseField`: `BaseField((self.0 + other.0) % PRIME)` in
`u32` arithmetic. -/
def BaseField.add (a b : BaseField) : BaseField := ⟨u32add a.val b.val % PRIME⟩

/-- `impl Sub for BaseField`: `BaseField((self.0 + PRIME - other.0) % PRIME)`
in `u32` arithmetic (left-to-right: add, then subtract, then reduce). -/
def BaseField.sub (a b : BaseField) : BaseField :=
  ⟨u32sub (u32add a.val PRIME) b.val % PRIME⟩

/-- `impl Mul for BaseField`: the product is formed in `u64`
(two `u32` factors can never overflow a `u64`), reduced `% PRIME`, and the
result (below `PRIME < 2^32`) is narrowed back to `u32` without loss. -/
def BaseField.mul (a b : BaseField) : BaseField := ⟨a.val * b.val % PRIME⟩

/-- `impl Neg for BaseField`: `BaseField(PRIME - self.0)` in `u32`
arithmetic, with no special case for zero. -/
def BaseField.neg (a : BaseField) : BaseField := ⟨u32sub PRIME a.val⟩

/-- `BaseField::square` -/
def BaseField.square (a : BaseField) : BaseField := a.mul a

/-- `BaseField::sqn::<N>`: square `n` times. -/
def BaseField.sqn : Nat → BaseField → BaseField
  | 0, v => v
  | n + 1, v => BaseField.sqn n v.square

/-- `BaseField::inverse`: `assert!(self != BaseField::new(0))` modelled as
`none`; otherwise the fixed addition chain with squaring blocks
{2,1,3,1,8,8,7}. -/
def BaseField.inverse (a : BaseField) : Option BaseField :=
  if a = BaseField.new 0 then none
  else
    let t0 := (BaseField.sqn 2 a).mul a
    let t1 := (BaseField.sqn 1 t0).mul t0
    let t2 := (BaseField.sqn 3 t1).mul t0
    let t3 := (BaseField.sqn 1 t2).mul t0
    let t4 := (BaseField.sqn 8 t3).mul t3
    let t5 := (BaseField.sqn 8 t4).mul t3
    some ((BaseField.sqn 7 t5).mul t2)

/-- The square-and-multiply loop of `BaseField::pow`.  The loop
`while exp > 0 { ...; exp >>= 1 }` terminates because `exp` strictly
decreases; the first argument is fuel bounding the iteration count so the
recursion is structural (the caller passes `fuel = exp`, which is enough
since the loop runs at most `exp` times). -/
def BaseField.powAux : Nat → Nat → BaseField → BaseField → BaseField
  | _, 0, res, _ => res
  | 0, _ + 1, res, _ => res
  | fuel + 1, e + 1, res, base =>
      BaseField.powAux fuel ((e + 1) / 2)
        (if (e + 1) % 2 = 1 then res.mul base else res) base.square

/-- `BaseField::pow(exp)`: binary exponentiation, result initialised to
`BaseField::new(1)`. -/
def BaseField.pow (a : BaseField) (exp : Nat) : BaseField :=
  BaseField.powAux exp exp (BaseField.new 1) a

/-- `impl Div for BaseField`: `self * other.inverse()`; inherits the
panic of `inverse` when the divisor is zero. -/
def BaseField.div (a b : BaseField) : Option BaseField :=
  b.inverse.map fun i => a.mul i

/-- `pub struct ExtensionField(pub [BaseField; 4]);`
`(c0, c1, c2, c3) = (c0 + c1 i) + (c2 + c3 i) j`, `i^2 = -1`, `j^2 = 2 + i`. -/
structure ExtensionField where
  c0 : BaseField
  c1 : BaseField
  c2 : BaseField
  c3 : BaseField
deriving DecidableEq, Repr

/-- `ExtensionField::new(a, b, c, d)` -/
def ExtensionField.new (a b c d : Nat) : ExtensionField :=
  ⟨BaseField.new a, BaseField.new b, BaseField.new c, BaseField.new d⟩

/-- `ExtensionField::mul_complex`: complex multiplication with `i^2 = -1`. -/
def ExtensionField.mul_complex (a b : BaseField × BaseField) :
    BaseField × BaseField :=
  ((a.1.mul b.1).sub (a.2.mul b.2), (a.1.mul b.2).add (a.2.mul b.1))

/-- `ExtensionField::square_complex` -/
def ExtensionField.square_complex (a : BaseField × BaseField) :
    BaseField × BaseField :=
  ExtensionField.mul_complex a a

/-- `ExtensionField::mul_complex_base` -/
def ExtensionField.mul_complex_base (a b c : BaseField) :
    BaseField × BaseField :=
  (a.mul c, b.mul c)

/-- `ExtensionField::inverse_complex`:
`assert!(a != BaseField(0) || b != BaseField(0))` modelled as `none`
(and the inner `BaseField::inverse` panic propagates as `none`);
otherwise `(a, -b) * (a^2 + b^2)^-1`. -/
def ExtensionField.inverse_complex (a b : BaseField) :
    Option (BaseField × BaseField) :=
  if a = ⟨0⟩ ∧ b = ⟨0⟩ then none
  else
    ((a.square.add b.square).inverse).map fun i =>
      ExtensionField.mul_complex_base a b.neg i

/-- The complex pair `denom` computed inside `ExtensionField::inverse`:
`a2 - (b2 + b2 + ib2)` componentwise, where `b2 = square_complex(B)`,
`ib2 = (-b2.1, b2.0)` and `a2 = square_complex(A)`. -/
def ExtensionField.invDenom (x : ExtensionField) : BaseField × BaseField :=
  let b2 := ExtensionField.square_complex (x.c2, x.c3)
  let ib2 : BaseField × BaseField := (b2.2.neg, b2.1)
  let a2 := ExtensionField.square_complex (x.c0, x.c1)
  (a2.1.sub ((b2.1.add b2.1).add ib2.1), a2.2.sub ((b2.2.add b2.2).add ib2.2))

/-- `ExtensionField::inverse`:
`assert!(*self != ExtensionField::new(0,0,0,0))` modelled as `none`;
otherwise multiply `(A, -B)` by the `inverse_complex` of the tower-norm
denominator. -/
def ExtensionField.inverse (x : ExtensionField) : Option ExtensionField :=
  if x = ExtensionField.new 0 0 0 0 then none
  else
    (ExtensionField.inverse_complex x.invDenom.1 x.invDenom.2).map fun di =>
      let ab := ExtensionField.mul_complex (x.c0, x.c1) di
      let cd := ExtensionField.mul_complex (x.c2.neg, x.c3.neg) di
      ⟨ab.1, ab.2, cd.1, cd.2⟩

/-- `impl Add for ExtensionField`: componentwise. -/
def ExtensionField.add (x y : ExtensionField) : ExtensionField :=
  ⟨x.c0.add y.c0, x.c1.add y.c1, x.c2.add y.c2, x.c3.add y.c3⟩

/-- `impl Sub for ExtensionField`: componentwise. -/
def ExtensionField.sub (x y : ExtensionField) : ExtensionField :=
  ⟨x.c0.sub y.c0, x.c1.sub y.c1, x.c2.sub y.c2, x.c3.sub y.c3⟩

/-- `impl Neg for ExtensionField`: componentwise. -/
def ExtensionField.neg (x : ExtensionField) : ExtensionField :=
  ⟨x.c0.neg, x.c1.neg, x.c2.neg, x.c3.neg⟩

/-- `impl Mul for ExtensionField`: the tower formula with `j^2 = 2 + i`,
encoded by the constant complex factor `(BaseField(2), BaseField(1))`. -/
def ExtensionField.mul (x y : ExtensionField) : ExtensionField :=
  let r0 := ExtensionField.mul_complex (x.c0, x.c1) (y.c0, y.c1)
  let r1 := ExtensionField.mul_complex (⟨2⟩, ⟨1⟩)
    (ExtensionField.mul_complex (x.c2, x.c3) (y.c2, y.c3))
  let s0 := ExtensionField.mul_complex (x.c0, x.c1) (y.c2, y.c3)
  let s1 := ExtensionField.mul_complex (x.c2, x.c3) (y.c0, y.c1)
  ⟨r0.1.add r1.1, r0.2.add r1.2, s0.1.add s1.1, s0.2.add s1.2⟩

/-- `ExtensionField::square` -/
def ExtensionField.square (x : ExtensionField) : ExtensionField := x.mul x

/-- The square-and-multiply loop of `ExtensionField::pow`, with fuel
exactly as in `BaseField.powAux`. -/
def ExtensionField.powAux : Nat → Nat → ExtensionField → ExtensionField →
    ExtensionField
  | _, 0, res, _ => res
  | 0, _ + 1, res, _ => res
  | fuel + 1, e + 1, res, base =>
      ExtensionField.powAux fuel ((e + 1) / 2)
        (if (e + 1) % 2 = 1 then res.mul base else res) base.square

/-- `ExtensionField::pow(exp)`: result initialised to
`ExtensionField::new(1, 0, 0, 0)`. -/
def ExtensionField.pow (x : ExtensionField) (exp : Nat) : ExtensionField :=
  ExtensionField.powAux exp exp (ExtensionField.new 1 0 0 0) x

/-- `impl Div for ExtensionField`: `self * other.inverse()`. -/
def ExtensionField.div (x y : ExtensionField) : Option ExtensionField :=
  y.inverse.map fun i => x.mul i

/-- `impl Add<BaseField> for ExtensionField`: scalar added to the first
coordinate only. -/
def ExtensionField.addScalar (x : ExtensionField) (s : BaseField) :
    ExtensionField :=
  ⟨x.c0.add s, x.c1, x.c2, x.c3⟩

/-- `impl Sub<BaseField> for ExtensionField`: scalar subtracted from the
first coordinate only. -/
def ExtensionField.subScalar (x : ExtensionField) (s : BaseField) :
    ExtensionField :=
  ⟨x.c0.sub s, x.c1, x.c2, x.c3⟩

/-- `impl Mul<BaseField> for ExtensionField`: scalar multiplies all four
coordinates. -/
def ExtensionField.mulScalar (x : ExtensionField) (s : BaseField) :
    ExtensionField :=
  ⟨x.c0.mul s, x.c1.mul s, x.c2.mul s, x.c3.mul s⟩

/-- `impl Div<BaseField> for ExtensionField`: four independent
`BaseField` divisions, each of which panics when the scalar is zero. -/
def ExtensionField.divScalar (x : ExtensionField) (s : BaseField) :
    Option ExtensionField :=
  match x.c0.div s, x.c1.div s, x.c2.div s, x.c3.div s with
  | some a, some b, some c, some d => some ⟨a, b, c, d⟩
  | _, _, _, _ => none

/-- The spec's embedding of a scalar: the tower element `(s, 0, 0, 0)`. -/
def ExtensionField.fromBase (s : BaseField) : ExtensionField :=
  ⟨s, ⟨0⟩, ⟨0⟩, ⟨0⟩⟩

/-- Spec-side definition for the exponentiation claim: the `n`-fold
product of `a` starting from the multiplicative identity `1`. -/
def BaseField.powIter (a : BaseField) : Nat → BaseField
  | 0 => BaseField.new 1
  | n + 1 => (BaseField.powIter a n).mul a

/-- Spec-side definition for the exponentiation claim: the `n`-fold
product of `x` starting from the multiplicative identity `(1,0,0,0)`. -/
def ExtensionField.powIter (x : ExtensionField) : Nat → ExtensionField
  | 0 => ExtensionField.new 1 0 0 0
  | n + 1 => (ExtensionField.powIter x n).mul x

/-- Canonicality of a stored representative: it lies in `[0, PRIME)`. -/
abbrev BaseField.canon (a : BaseField) : Prop := a.val < PRIME

/-- All four stored representatives lie in `[0, PRIME)`. -/
abbrev ExtensionField.canon (x : ExtensionField) : Prop :=
  x.c0.val < PRIME ∧ x.c1.val < PRIME ∧ x.c2.val < PRIME ∧ x.c3.val < PRIME

example : (BaseField.new 5).add (BaseField.new 7) = BaseField.new 12 := by decide
example : (BaseField.new 3).sub (BaseField.new 5) = ⟨PRIME - 2⟩ := by decide
example : (BaseField.new 0).neg = ⟨PRIME⟩ := by decide
example : (BaseField.new 3).pow 4 = BaseField.new 81 := by decide
example :
    (ExtensionField.new 1 2 3 4).mul (ExtensionField.new 4 5 6 7) =
      ExtensionField.new (PRIME - 71) 93 (PRIME - 16) 50 := by decide

/-!
## Semantic layer

Each stored representative is mapped to `ZMod PRIME`; the arithmetic
operations are ring-homomorphic under that map as long as the inputs are
small enough that the `u32` intermediates do not wrap (`val ≤ PRIME`
suffices everywhere, and covers the non-canonical value `PRIME` that
`neg` produces on input `0`).
-/

abbrev K : Type := ZMod PRIME

theorem prime_PRIME : Nat.Prime PRIME := by
  have h : PRIME = mersenne 31 := by decide
  rw [h]
  exact lucas_lehmer_sufficiency 31 (by norm_num) (by norm_num)

instance : Fact (Nat.Prime PRIME) := ⟨prime_PRIME⟩

instance : NeZero PRIME := ⟨by decide⟩

theorem PRIME_pos : 0 < PRIME := by decide

/-- Semantic value of a `BaseField` element. -/
def BaseField.toK (a : BaseField) : K := (a.val : K)

theorem BaseField.toK_new (v : Nat) : (BaseField.new v).toK = (v : K) := by
  simp [BaseField.new, BaseField.toK, ZMod.natCast_mod]

theorem BaseField.new_canon (v : Nat) : (BaseField.new v).canon :=
  Nat.mod_lt _ PRIME_pos

theorem BaseField.add_canon (a b : BaseField) : (a.add b).canon :=
  Nat.mod_lt _ PRIME_pos

theorem BaseField.sub_canon (a b : BaseField) : (a.sub b).canon :=
  Nat.mod_lt _ PRIME_pos

theorem BaseField.mul_canon (a b : BaseField) : (a.mul b).canon :=
  Nat.mod_lt _ PRIME_pos

theorem BaseField.neg_val {a : BaseField} (h : a.val ≤ PRIME) :
    a.neg.val = PRIME - a.val := by
  simp only [BaseField.neg, u32sub, U32SIZE, PRIME] at *
  omega

theorem BaseField.neg_le {a : BaseField} (h : a.val ≤ PRIME) :
    a.neg.val ≤ PRIME := by
  rw [BaseField.neg_val h]; omega

theorem BaseField.toK_add {a b : BaseField} (ha : a.val ≤ PRIME)
    (hb : b.val ≤ PRIME) : (a.add b).toK = a.toK + b.toK := by
  have h1 : u32add a.val b.val = a.val + b.val := by
    simp only [u32add, U32SIZE, PRIME] at *
    omega
  simp only [BaseField.add, BaseField.toK, h1, ZMod.natCast_mod]
  push_cast
  ring

theorem BaseField.toK_sub {a b : BaseField} (ha : a.val ≤ PRIME)
    (hb : b.val ≤ PRIME) : (a.sub b).toK = a.toK - b.toK := by
  have h1 : u32sub (u32add a.val PRIME) b.val = a.val + PRIME - b.val := by
    simp only [u32add, u32sub, U32SIZE, PRIME] at *
    omega
  simp only [BaseField.sub, BaseField.toK, h1, ZMod.natCast_mod]
  have h2 : ((a.val + PRIME - b.val : Nat) : K) =
      ((a.val + PRIME : Nat) : K) - (b.val : K) := by
    have hble : b.val ≤ a.val + PRIME := by omega
    push_cast [hble]
    ring
  rw [h2]
  push_cast [ZMod.natCast_self]
  ring

theorem BaseField.toK_mul (a b : BaseField) :
    (a.mul b).toK = a.toK * b.toK := by
  simp [BaseField.mul, BaseField.toK, ZMod.natCast_mod]

theorem BaseField.toK_neg {a : BaseField} (h : a.val ≤ PRIME) :
    a.neg.toK = -a.toK := by
  simp only [BaseField.toK, BaseField.neg_val h]
  have h2 : ((PRIME - a.val : Nat) : K) = ((PRIME : Nat) : K) - (a.val : K) := by
    push_cast [h]
    ring
  rw [h2, ZMod.natCast_self]
  ring

theorem BaseField.toK_inj {a b : BaseField} (ha : a.canon) (hb : b.canon)
    (h : a.toK = b.toK) : a = b := by
  have hv : a.val = b.val := by
    have h1 := ZMod.val_cast_of_lt (n := PRIME) ha
    have h2 := ZMod.val_cast_of_lt (n := PRIME) hb
    rw [BaseField.toK, BaseField.toK] at h
    rw [← h1, ← h2, h]
  cases a; cases b; simp_all

theorem BaseField.new_zero : BaseField.new 0 = ⟨0⟩ := rfl

theorem BaseField.toK_eq_zero_iff {a : BaseField} (ha : a.canon) :
    a.toK = 0 ↔ a = BaseField.new 0 := by
  constructor
  · intro h
    exact BaseField.toK_inj ha (BaseField.new_canon 0) (by rw [h]; rfl)
  · intro h
    rw [h]; rfl

/-! ## Exponentiation and the inversion chain over `K` -/

theorem BaseField.powAux_toK (fuel : Nat) :
    ∀ e res base, e ≤ fuel →
      (BaseField.powAux fuel e res base).toK = res.toK * base.toK ^ e := by
  induction fuel with
  | zero =>
    intro e res base he
    interval_cases e
    simp [BaseField.powAux]
  | succ fuel ih =>
    intro e res base he
    match e with
    | 0 => simp [BaseField.powAux]
    | k + 1 =>
      have hrec : (k + 1) / 2 ≤ fuel := by omega
      rw [BaseField.powAux, ih _ _ _ hrec]
      have hsq : (base.square).toK = base.toK * base.toK := BaseField.toK_mul base base
      rcases Nat.mod_two_eq_zero_or_one (k + 1) with h2 | h2
      · rw [if_neg (by omega)]
        rw [hsq, ← pow_two, ← pow_mul]
        have he2 : 2 * ((k + 1) / 2) = k + 1 := by omega
        rw [he2]
      · rw [if_pos h2]
        rw [BaseField.toK_mul, hsq, ← pow_two, ← pow_mul]
        have he2 : k + 1 = 2 * ((k + 1) / 2) + 1 := by omega
        conv_rhs => rw [he2]
        rw [pow_succ]
        ring

theorem BaseField.powAux_canon (fuel : Nat) :
    ∀ e res base, res.canon → (BaseField.powAux fuel e res base).canon := by
  induction fuel with
  | zero =>
    intro e res base hres
    match e with
    | 0 => exact hres
    | _ + 1 => exact hres
  | succ fuel ih =>
    intro e res base hres
    match e with
    | 0 => exact hres
    | k + 1 =>
      rw [BaseField.powAux]
      apply ih
      split
      · exact BaseField.mul_canon res base
      · exact hres

theorem BaseField.pow_toK (a : BaseField) (exp : Nat) :
    (a.pow exp).toK = a.toK ^ exp := by
  rw [BaseField.pow, BaseField.powAux_toK exp exp _ _ le_rfl, BaseField.toK_new]
  push_cast
  ring

theorem BaseField.pow_canon (a : BaseField) (exp : Nat) : (a.pow exp).canon :=
  BaseField.powAux_canon exp exp _ a (BaseField.new_canon 1)

theorem BaseField.sqn_toK (n : Nat) (v : BaseField) :
    (BaseField.sqn n v).toK = v.toK ^ (2 ^ n) := by
  induction n generalizing v with
  | zero => simp [BaseField.sqn]
  | succ n ih =>
    rw [BaseField.sqn, ih, BaseField.square, BaseField.toK_mul, ← pow_two,
      ← pow_mul, pow_succ, Nat.mul_comm]

/-- The addition chain in `BaseField::inverse` computes exactly the
`(PRIME - 2)`-th power semantically. -/
theorem BaseField.inverse_eq_some {a : BaseField} (h : a ≠ BaseField.new 0) :
    ∃ r, a.inverse = some r ∧ r.canon ∧ r.toK = a.toK ^ (PRIME - 2) := by
  rw [BaseField.inverse, if_neg h]
  refine ⟨_, rfl, BaseField.mul_canon _ _, ?_⟩
  simp only [BaseField.toK_mul, BaseField.sqn_toK]
  have hP : PRIME - 2 = 2147483645 := by decide
  rw [hP]
  ring

theorem BaseField.toK_ne_zero {a : BaseField} (ha : a.canon)
    (h : a ≠ BaseField.new 0) : a.toK ≠ 0 := by
  intro h0
  exact h ((BaseField.toK_eq_zero_iff ha).mp h0)

/-- Full specification of `BaseField::inverse` on nonzero canonical
input: it succeeds, returns a canonical value which is semantically the
multiplicative inverse, and that value is exactly `a^(PRIME-2)`. -/
theorem BaseField.inverse_spec {a : BaseField} (ha : a.canon)
    (h : a ≠ BaseField.new 0) :
    ∃ r, a.inverse = some r ∧ r.canon ∧ a.toK * r.toK = 1 ∧
      r = a.pow (PRIME - 2) := by
  obtain ⟨r, hr, hrc, hrK⟩ := BaseField.inverse_eq_some h
  have hK : a.toK ≠ 0 := BaseField.toK_ne_zero ha h
  have hferm : a.toK ^ (PRIME - 1) = 1 := ZMod.pow_card_sub_one_eq_one hK
  have hmul : a.toK * r.toK = 1 := by
    rw [hrK, ← pow_succ']
    have he : PRIME - 2 + 1 = PRIME - 1 := by decide
    rw [he] at *
    exact hferm
  refine ⟨r, hr, hrc, hmul, ?_⟩
  exact BaseField.toK_inj hrc (BaseField.pow_canon a _)
    (by rw [hrK, BaseField.pow_toK])

/-! ## Quadratic residue facts modulo `PRIME` -/

theorem K_one_ne_neg_one : (1 : K) ≠ -1 := by
  intro h
  have h2 : ((2 : Nat) : K) = 0 := by push_cast; linear_combination h
  rw [ZMod.natCast_zmod_eq_zero_iff_dvd] at h2
  exact absurd (Nat.le_of_dvd (by omega) h2) (by decide)

theorem K_sq_ne_neg_one (r : K) : r ^ 2 ≠ -1 := by
  intro h
  have hr : r ≠ 0 := by
    intro h0
    rw [h0] at h
    have hz : (0 : K) ^ 2 = 0 := by ring
    rw [hz] at h
    exact one_ne_zero (neg_eq_zero.mp h.symm)
  have hferm := ZMod.pow_card_sub_one_eq_one hr
  have he : PRIME - 1 = 2 * 1073741823 := by decide
  rw [he, pow_mul, h] at hferm
  have hodd : Odd 1073741823 := ⟨536870911, by norm_num⟩
  rw [hodd.neg_one_pow] at hferm
  exact K_one_ne_neg_one hferm.symm

/-- `5` is a quadratic non-residue modulo `PRIME`, verified by computing
`5 ^ ((PRIME - 1) / 2) = PRIME - 1` with the embedded binary
exponentiation. -/
theorem K_sq_ne_five (r : K) : r ^ 2 ≠ 5 := by
  intro h
  have h5 : ((5 : Nat) : K) ≠ 0 := by
    rw [Ne, ZMod.natCast_zmod_eq_zero_iff_dvd]
    intro hd
    exact absurd (Nat.le_of_dvd (by omega) hd) (by decide)
  have hfive : ((5 : Nat) : K) = (5 : K) := by push_cast; ring
  have hr : r ≠ 0 := by
    intro h0
    rw [h0] at h
    have hz : (0 : K) ^ 2 = 0 := by ring
    rw [hz] at h
    exact h5 (by rw [hfive]; exact h.symm)
  have hferm := ZMod.pow_card_sub_one_eq_one hr
  have he : PRIME - 1 = 2 * 1073741823 := by decide
  rw [he, pow_mul, h] at hferm
  have hval : ((BaseField.new 5).pow 1073741823).val = 2147483646 := by decide
  have hcomp : ((5 : Nat) : K) ^ 1073741823 = ((2147483646 : Nat) : K) := by
    rw [← BaseField.toK_new 5, ← BaseField.pow_toK, BaseField.toK, hval]
  rw [← hfive, hcomp] at hferm
  have hneg : ((2147483646 : Nat) : K) = -1 := by
    have hs : ((2147483646 : Nat) : K) + 1 = ((2147483647 : Nat) : K) := by
      push_cast; ring
    have hz : ((2147483647 : Nat) : K) = 0 := ZMod.natCast_self PRIME
    rw [hz] at hs
    linear_combination hs
  rw [hneg] at hferm
  exact K_one_ne_neg_one hferm.symm

theorem K_sq_add_sq_eq_zero {x y : K} (h : x * x + y * y = 0) :
    x = 0 ∧ y = 0 := by
  by_cases hy : y = 0
  · subst hy
    refine ⟨?_, rfl⟩
    have hx : x * x = 0 := by linear_combination h
    exact mul_self_eq_zero.mp hx
  · exfalso
    have hy2 : y * y ≠ 0 := mul_ne_zero hy hy
    have hx2 : x * x = -(y * y) := by linear_combination h
    apply K_sq_ne_neg_one (x * y⁻¹)
    have h1 : (x * y⁻¹) ^ 2 = (x * x) * (y * y)⁻¹ := by
      rw [pow_two, mul_inv]
      ring
    rw [h1, hx2, neg_mul, mul_inv_cancel₀ hy2]

/-! ## Complex-pair semantics over `K` -/

/-- Semantic complex multiplication (with `i^2 = -1`) over `K`. -/
def cmulK (p q : K × K) : K × K :=
  (p.1 * q.1 - p.2 * q.2, p.1 * q.2 + p.2 * q.1)

/-- Semantic componentwise addition of complex pairs. -/
def caddK (p q : K × K) : K × K := (p.1 + q.1, p.2 + q.2)

/-- Semantic complex norm `a^2 + b^2` over `K`. -/
def cnormK (p : K × K) : K := p.1 * p.1 + p.2 * p.2

theorem cnormK_cmulK (p q : K × K) :
    cnormK (cmulK p q) = cnormK p * cnormK q := by
  simp only [cmulK, cnormK]
  ring

theorem cnormK_eq_zero_iff (p : K × K) : cnormK p = 0 ↔ p = (0, 0) := by
  constructor
  · intro h
    obtain ⟨h1, h2⟩ := K_sq_add_sq_eq_zero h
    obtain ⟨a, b⟩ := p
    simp_all
  · intro h
    rw [h]
    simp [cnormK]

/-- Semantic value of a complex pair of `BaseField` elements. -/
def toK2 (p : BaseField × BaseField) : K × K := (p.1.toK, p.2.toK)

theorem toK2_mul_complex (p q : BaseField × BaseField) :
    toK2 (ExtensionField.mul_complex p q) = cmulK (toK2 p) (toK2 q) := by
  simp only [toK2, ExtensionField.mul_complex, cmulK, Prod.mk.injEq]
  exact ⟨by rw [BaseField.toK_sub (BaseField.mul_canon _ _).le
      (BaseField.mul_canon _ _).le, BaseField.toK_mul, BaseField.toK_mul],
    by rw [BaseField.toK_add (BaseField.mul_canon _ _).le
      (BaseField.mul_canon _ _).le, BaseField.toK_mul, BaseField.toK_mul]⟩

theorem mul_complex_canon (p q : BaseField × BaseField) :
    (ExtensionField.mul_complex p q).1.canon ∧
      (ExtensionField.mul_complex p q).2.canon :=
  ⟨BaseField.sub_canon _ _, BaseField.add_canon _ _⟩

theorem mc_fst_toK (p q : BaseField × BaseField) :
    (ExtensionField.mul_complex p q).1.toK = (cmulK (toK2 p) (toK2 q)).1 :=
  congrArg Prod.fst (toK2_mul_complex p q)

theorem mc_snd_toK (p q : BaseField × BaseField) :
    (ExtensionField.mul_complex p q).2.toK = (cmulK (toK2 p) (toK2 q)).2 :=
  congrArg Prod.snd (toK2_mul_complex p q)

/-! ## Extension-field semantics over `K` -/

/-- Semantic value of an `ExtensionField` element: two complex pairs. -/
def ExtensionField.toK4 (x : ExtensionField) : (K × K) × (K × K) :=
  ((x.c0.toK, x.c1.toK), (x.c2.toK, x.c3.toK))

/-- Semantic tower multiplication over `K` (with `j^2 = 2 + i` encoded by
the constant complex factor `(2, 1)`). -/
def emulK (x y : (K × K) × (K × K)) : (K × K) × (K × K) :=
  (caddK (cmulK x.1 y.1) (cmulK ((2 : K), (1 : K)) (cmulK x.2 y.2)),
   caddK (cmulK x.1 y.2) (cmulK x.2 y.1))

theorem ExtensionField.mul_canon_ext (x y : ExtensionField) : (x.mul y).canon :=
  ⟨BaseField.add_canon _ _, BaseField.add_canon _ _,
   BaseField.add_canon _ _, BaseField.add_canon _ _⟩

theorem ExtensionField.new_canon_ext (a b c d : Nat) :
    (ExtensionField.new a b c d).canon :=
  ⟨BaseField.new_canon a, BaseField.new_canon b,
   BaseField.new_canon c, BaseField.new_canon d⟩

theorem toK2_two_one : toK2 (⟨2⟩, ⟨1⟩) = ((2 : K), (1 : K)) := by
  simp only [toK2, BaseField.toK, Prod.mk.injEq]
  constructor
  · push_cast; ring
  · push_cast; ring

theorem ExtensionField.toK4_mul (x y : ExtensionField) :
    (x.mul y).toK4 = emulK x.toK4 y.toK4 := by
  simp only [ExtensionField.mul, ExtensionField.toK4, emulK, caddK,
    Prod.mk.injEq]
  refine ⟨⟨?_, ?_⟩, ?_, ?_⟩
  · rw [BaseField.toK_add (mul_complex_canon _ _).1.le
      (mul_complex_canon _ _).1.le, mc_fst_toK, mc_fst_toK,
      toK2_mul_complex, toK2_two_one]
    simp [toK2]
  · rw [BaseField.toK_add (mul_complex_canon _ _).2.le
      (mul_complex_canon _ _).2.le, mc_snd_toK, mc_snd_toK,
      toK2_mul_complex, toK2_two_one]
    simp [toK2]
  · rw [BaseField.toK_add (mul_complex_canon _ _).1.le
      (mul_complex_canon _ _).1.le, mc_fst_toK, mc_fst_toK]
    simp [toK2]
  · rw [BaseField.toK_add (mul_complex_canon _ _).2.le
      (mul_complex_canon _ _).2.le, mc_snd_toK, mc_snd_toK]
    simp [toK2]

theorem ExtensionField.toK4_inj {x y : ExtensionField} (hx : x.canon)
    (hy : y.canon) (h : x.toK4 = y.toK4) : x = y := by
  obtain ⟨x0, x1, x2, x3⟩ := x
  obtain ⟨y0, y1, y2, y3⟩ := y
  simp only [ExtensionField.toK4, Prod.mk.injEq] at h
  obtain ⟨⟨h0, h1⟩, h2, h3⟩ := h
  obtain ⟨hx0, hx1, hx2, hx3⟩ := hx
  obtain ⟨hy0, hy1, hy2, hy3⟩ := hy
  have e0 : x0 = y0 := BaseField.toK_inj (a := x0) (b := y0) hx0 hy0 h0
  have e1 : x1 = y1 := BaseField.toK_inj (a := x1) (b := y1) hx1 hy1 h1
  have e2 : x2 = y2 := BaseField.toK_inj (a := x2) (b := y2) hx2 hy2 h2
  have e3 : x3 = y3 := BaseField.toK_inj (a := x3) (b := y3) hx3 hy3 h3
  rw [e0, e1, e2, e3]

/-! ## The tower-norm denominator and extension inversion -/

/-- Semantic componentwise subtraction of complex pairs. -/
def csubK (p q : K × K) : K × K := (p.1 - q.1, p.2 - q.2)

theorem ExtensionField.invDenom_canon (x : ExtensionField) :
    x.invDenom.1.canon ∧ x.invDenom.2.canon :=
  ⟨BaseField.sub_canon _ _, BaseField.sub_canon _ _⟩

theorem ExtensionField.invDenom_toK2 (x : ExtensionField) :
    toK2 x.invDenom =
      csubK (cmulK x.toK4.1 x.toK4.1)
        (cmulK ((2 : K), (1 : K)) (cmulK x.toK4.2 x.toK4.2)) := by
  simp only [ExtensionField.invDenom, ExtensionField.square_complex, toK2,
    csubK, ExtensionField.toK4, Prod.mk.injEq]
  constructor
  · rw [BaseField.toK_sub (mul_complex_canon _ _).1.le
        (BaseField.add_canon _ _).le,
      BaseField.toK_add (BaseField.add_canon _ _).le
        (BaseField.neg_le (mul_complex_canon _ _).2.le),
      BaseField.toK_add (mul_complex_canon _ _).1.le
        (mul_complex_canon _ _).1.le,
      BaseField.toK_neg (mul_complex_canon _ _).2.le,
      mc_fst_toK, mc_fst_toK, mc_snd_toK]
    simp only [toK2, cmulK]
    ring
  · rw [BaseField.toK_sub (mul_complex_canon _ _).2.le
        (BaseField.add_canon _ _).le,
      BaseField.toK_add (BaseField.add_canon _ _).le
        (mul_complex_canon _ _).1.le,
      BaseField.toK_add (mul_complex_canon _ _).2.le
        (mul_complex_canon _ _).2.le,
      mc_snd_toK, mc_snd_toK, mc_fst_toK]
    simp only [toK2, cmulK]
    ring

/-- Key fact: the tower norm `A^2 - (2+i)B^2` vanishes only at
`A = B = 0`, because `5 = cnorm(2+i)` is a quadratic non-residue
modulo `PRIME`. -/
theorem denomK_ne_zero {A B : K × K}
    (h : ¬(A = (0, 0) ∧ B = (0, 0))) :
    csubK (cmulK A A) (cmulK ((2 : K), (1 : K)) (cmulK B B)) ≠ (0, 0) := by
  intro hD
  have hEq : cmulK A A = cmulK ((2 : K), (1 : K)) (cmulK B B) := by
    have h1 := congrArg Prod.fst hD
    have h2 := congrArg Prod.snd hD
    simp only [csubK] at h1 h2
    have e1 : (cmulK A A).1 = (cmulK ((2 : K), (1 : K)) (cmulK B B)).1 := by
      have := sub_eq_zero.mp h1
      exact this
    have e2 : (cmulK A A).2 = (cmulK ((2 : K), (1 : K)) (cmulK B B)).2 := by
      have := sub_eq_zero.mp h2
      exact this
    exact Prod.ext e1 e2
  have h21 : cnormK ((2 : K), (1 : K)) = 5 := by
    simp only [cnormK]
    norm_num
  have hN : cnormK A * cnormK A = 5 * (cnormK B * cnormK B) := by
    have hc := congrArg cnormK hEq
    rw [cnormK_cmulK, cnormK_cmulK, cnormK_cmulK, h21] at hc
    linear_combination hc
  by_cases hB : cnormK B = 0
  · have hBz := (cnormK_eq_zero_iff B).mp hB
    have hA : cnormK A = 0 := by
      apply mul_self_eq_zero.mp
      rw [hN, hB]
      ring
    exact h ⟨(cnormK_eq_zero_iff A).mp hA, hBz⟩
  · apply K_sq_ne_five (cnormK A * (cnormK B)⁻¹)
    have hB2 : cnormK B * cnormK B ≠ 0 := mul_ne_zero hB hB
    have h1 : (cnormK A * (cnormK B)⁻¹) ^ 2 =
        (cnormK A * cnormK A) * (cnormK B * cnormK B)⁻¹ := by
      rw [pow_two, mul_inv]
      ring
    rw [h1, hN, mul_assoc, mul_inv_cancel₀ hB2, mul_one]

/-- Full specification of `ExtensionField::inverse_complex` on canonical
pairs other than `(0, 0)`: it succeeds and returns a canonical pair that
is semantically the complex inverse. -/
theorem ExtensionField.inverse_complex_spec {a b : BaseField}
    (ha : a.canon) (hb : b.canon) (h : ¬(a = ⟨0⟩ ∧ b = ⟨0⟩)) :
    ∃ p, ExtensionField.inverse_complex a b = some p ∧ p.1.canon ∧
      p.2.canon ∧ cmulK (toK2 (a, b)) (toK2 p) = (1, 0) := by
  have hnormK : (a.square.add b.square).toK =
      a.toK * a.toK + b.toK * b.toK := by
    simp only [BaseField.square]
    rw [BaseField.toK_add (BaseField.mul_canon a a).le
      (BaseField.mul_canon b b).le, BaseField.toK_mul, BaseField.toK_mul]
  have hnne : (a.square.add b.square).toK ≠ 0 := by
    rw [hnormK]
    intro h0
    obtain ⟨h1, h2⟩ := K_sq_add_sq_eq_zero h0
    exact h ⟨(BaseField.toK_eq_zero_iff ha).mp h1,
      (BaseField.toK_eq_zero_iff hb).mp h2⟩
  have hne0 : a.square.add b.square ≠ BaseField.new 0 := by
    intro he
    apply hnne
    rw [he]
    rfl
  obtain ⟨r, hr, hrc, hrmul, _⟩ :=
    BaseField.inverse_spec (BaseField.add_canon _ _) hne0
  refine ⟨ExtensionField.mul_complex_base a b.neg r, ?_, ?_, ?_, ?_⟩
  · rw [ExtensionField.inverse_complex, if_neg h, hr]
    rfl
  · exact BaseField.mul_canon _ _
  · exact BaseField.mul_canon _ _
  · have hkey : (a.toK * a.toK + b.toK * b.toK) * r.toK = 1 := by
      rw [← hnormK]
      exact hrmul
    simp only [toK2, ExtensionField.mul_complex_base, cmulK,
      BaseField.toK_mul, BaseField.toK_neg hb.le, Prod.mk.injEq]
    constructor
    · linear_combination hkey
    · ring

theorem ExtensionField.toK4_zero :
    (ExtensionField.new 0 0 0 0).toK4 = (((0 : K), (0 : K)), ((0 : K), (0 : K))) := by
  simp [ExtensionField.new, ExtensionField.toK4, BaseField.toK_new]

theorem ExtensionField.toK4_one :
    (ExtensionField.new 1 0 0 0).toK4 = (((1 : K), (0 : K)), ((0 : K), (0 : K))) := by
  simp [ExtensionField.new, ExtensionField.toK4, BaseField.toK_new]

/-- Full specification of `ExtensionField::inverse` on canonical nonzero
input: it succeeds (in particular the inner `inverse_complex` never hits
its assertion) and returns a canonical right inverse for `mul`. -/
theorem ExtensionField.inverse_spec_ext {x : ExtensionField} (hx : x.canon)
    (h : x ≠ ExtensionField.new 0 0 0 0) :
    ∃ y, x.inverse = some y ∧ y.canon ∧
      x.mul y = ExtensionField.new 1 0 0 0 := by
  obtain ⟨hx0, hx1, hx2, hx3⟩ := hx
  have hK : ¬(x.toK4.1 = ((0 : K), (0 : K)) ∧
      x.toK4.2 = ((0 : K), (0 : K))) := by
    intro hz
    apply h
    apply ExtensionField.toK4_inj ⟨hx0, hx1, hx2, hx3⟩
      (ExtensionField.new_canon_ext 0 0 0 0)
    rw [ExtensionField.toK4_zero]
    exact Prod.ext hz.1 hz.2
  have hDne2 : toK2 x.invDenom ≠ ((0 : K), (0 : K)) := by
    rw [ExtensionField.invDenom_toK2]
    exact denomK_ne_zero hK
  have hDne : ¬(x.invDenom.1 = ⟨0⟩ ∧ x.invDenom.2 = ⟨0⟩) := by
    intro hz
    apply hDne2
    simp [toK2, hz.1, hz.2, BaseField.toK]
  obtain ⟨p, hp, hpc1, hpc2, hpmul⟩ := ExtensionField.inverse_complex_spec
    (ExtensionField.invDenom_canon x).1 (ExtensionField.invDenom_canon x).2
    hDne
  have hkey : cmulK (toK2 x.invDenom) (toK2 p) = (1, 0) := hpmul
  rw [ExtensionField.invDenom_toK2] at hkey
  have hk1 := congrArg Prod.fst hkey
  have hk2 := congrArg Prod.snd hkey
  simp only [cmulK, csubK, caddK, toK2, ExtensionField.toK4] at hk1 hk2
  refine ⟨⟨(ExtensionField.mul_complex (x.c0, x.c1) p).1,
      (ExtensionField.mul_complex (x.c0, x.c1) p).2,
      (ExtensionField.mul_complex (x.c2.neg, x.c3.neg) p).1,
      (ExtensionField.mul_complex (x.c2.neg, x.c3.neg) p).2⟩, ?_, ?_, ?_⟩
  · rw [ExtensionField.inverse, if_neg h, hp]
    rfl
  · exact ⟨(mul_complex_canon _ _).1, (mul_complex_canon _ _).2,
      (mul_complex_canon _ _).1, (mul_complex_canon _ _).2⟩
  · apply ExtensionField.toK4_inj (ExtensionField.mul_canon_ext _ _)
      (ExtensionField.new_canon_ext 1 0 0 0)
    rw [ExtensionField.toK4_mul, ExtensionField.toK4_one]
    simp only [emulK, caddK, ExtensionField.toK4, mc_fst_toK, mc_snd_toK,
      toK2, cmulK, BaseField.toK_neg hx2.le, BaseField.toK_neg hx3.le,
      Prod.mk.injEq]
    refine ⟨⟨?_, ?_⟩, ?_, ?_⟩
    · linear_combination hk1
    · linear_combination hk2
    · ring
    · ring

/-! ## Algebraic facts about the embedded multiplications -/

theorem BaseField.powIter_canon (a : BaseField) (n : Nat) :
    (a.powIter n).canon := by
  cases n with
  | zero => exact BaseField.new_canon 1
  | succ n => exact BaseField.mul_canon _ _

theorem BaseField.powIter_toK (a : BaseField) (n : Nat) :
    (a.powIter n).toK = a.toK ^ n := by
  induction n with
  | zero =>
    rw [BaseField.powIter, BaseField.toK_new]
    push_cast
    ring
  | succ n ih =>
    rw [BaseField.powIter, BaseField.toK_mul, ih, pow_succ]

theorem ExtensionField.mul_comm_ext (x y : ExtensionField) :
    x.mul y = y.mul x := by
  apply ExtensionField.toK4_inj (ExtensionField.mul_canon_ext x y)
    (ExtensionField.mul_canon_ext y x)
  rw [ExtensionField.toK4_mul, ExtensionField.toK4_mul]
  simp only [emulK, caddK, cmulK, Prod.mk.injEq]
  refine ⟨⟨?_, ?_⟩, ?_, ?_⟩ <;> ring

theorem ExtensionField.mul_assoc_ext (x y z : ExtensionField) :
    (x.mul y).mul z = x.mul (y.mul z) := by
  apply ExtensionField.toK4_inj (ExtensionField.mul_canon_ext _ _)
    (ExtensionField.mul_canon_ext _ _)
  rw [ExtensionField.toK4_mul, ExtensionField.toK4_mul,
    ExtensionField.toK4_mul, ExtensionField.toK4_mul]
  simp only [emulK, caddK, cmulK, Prod.mk.injEq]
  refine ⟨⟨?_, ?_⟩, ?_, ?_⟩ <;> ring

theorem ExtensionField.mul_one_ext {x : ExtensionField} (hx : x.canon) :
    x.mul (ExtensionField.new 1 0 0 0) = x := by
  apply ExtensionField.toK4_inj (ExtensionField.mul_canon_ext _ _) hx
  rw [ExtensionField.toK4_mul, ExtensionField.toK4_one]
  simp only [emulK, caddK, cmulK, ExtensionField.toK4, Prod.mk.injEq]
  refine ⟨⟨?_, ?_⟩, ?_, ?_⟩ <;> ring

theorem ExtensionField.powIter_canon_ext (x : ExtensionField) (n : Nat) :
    (x.powIter n).canon := by
  cases n with
  | zero => exact ExtensionField.new_canon_ext 1 0 0 0
  | succ n => exact ExtensionField.mul_canon_ext _ _

theorem ExtensionField.powIter_add (x : ExtensionField) (m n : Nat) :
    x.powIter (m + n) = (x.powIter m).mul (x.powIter n) := by
  induction n with
  | zero =>
    rw [Nat.add_zero, ExtensionField.powIter,
      ExtensionField.mul_one_ext (ExtensionField.powIter_canon_ext x m)]
  | succ n ih =>
    rw [← Nat.add_assoc, ExtensionField.powIter, ih, ExtensionField.powIter,
      ExtensionField.mul_assoc_ext]

theorem ExtensionField.powIter_sq (x : ExtensionField) (m : Nat) :
    (x.mul x).powIter m = x.powIter (2 * m) := by
  induction m with
  | zero => rfl
  | succ m ih =>
    have h2 : 2 * (m + 1) = 2 * m + 1 + 1 := by omega
    rw [ExtensionField.powIter, ih, h2, ExtensionField.powIter,
      ExtensionField.powIter, ExtensionField.mul_assoc_ext]

theorem ExtensionField.powAux_eq (fuel : Nat) :
    ∀ e res base, e ≤ fuel → res.canon →
      ExtensionField.powAux fuel e res base = res.mul (base.powIter e) := by
  induction fuel with
  | zero =>
    intro e res base he hres
    interval_cases e
    rw [ExtensionField.powAux, ExtensionField.powIter,
      ExtensionField.mul_one_ext hres]
  | succ fuel ih =>
    intro e res base he hres
    match e with
    | 0 =>
      rw [ExtensionField.powAux, ExtensionField.powIter,
        ExtensionField.mul_one_ext hres]
    | k + 1 =>
      have hrec : (k + 1) / 2 ≤ fuel := by omega
      rw [ExtensionField.powAux]
      rcases Nat.mod_two_eq_zero_or_one (k + 1) with h2 | h2
      · rw [if_neg (by omega), ih _ _ _ hrec hres,
          ExtensionField.square, ExtensionField.powIter_sq]
        have he2 : 2 * ((k + 1) / 2) = k + 1 := by omega
        rw [he2]
      · rw [if_pos h2, ih _ _ _ hrec (ExtensionField.mul_canon_ext res base),
          ExtensionField.square, ExtensionField.powIter_sq]
        have he2 : k + 1 = 2 * ((k + 1) / 2) + 1 := by omega
        conv_rhs => rw [he2]
        rw [ExtensionField.powIter, ExtensionField.mul_assoc_ext,
          ExtensionField.mul_comm_ext base (base.powIter _)]


/-! ## Scalar embedding -/

theorem BaseField.add_zero_right {a : BaseField} (ha : a.canon) :
    a.add ⟨0⟩ = a := by
  apply BaseField.toK_inj (BaseField.add_canon _ _) ha
  rw [BaseField.toK_add ha.le (Nat.zero_le _)]
  simp [BaseField.toK]

theorem BaseField.sub_zero_right {a : BaseField} (ha : a.canon) :
    a.sub ⟨0⟩ = a := by
  apply BaseField.toK_inj (BaseField.sub_canon _ _) ha
  rw [BaseField.toK_sub ha.le (Nat.zero_le _)]
  simp [BaseField.toK]

theorem ExtensionField.fromBase_canon {s : BaseField} (hs : s.canon) :
    (ExtensionField.fromBase s).canon :=
  ⟨hs, PRIME_pos, PRIME_pos, PRIME_pos⟩

theorem ExtensionField.fromBase_toK4 (s : BaseField) :
    (ExtensionField.fromBase s).toK4 = ((s.toK, (0 : K)), ((0 : K), (0 : K))) := by
  simp [ExtensionField.fromBase, ExtensionField.toK4, BaseField.toK]

theorem ExtensionField.addScalar_eq {x : ExtensionField} (hx : x.canon)
    (s : BaseField) : x.addScalar s = x.add (ExtensionField.fromBase s) := by
  obtain ⟨hx0, hx1, hx2, hx3⟩ := hx
  simp only [ExtensionField.addScalar, ExtensionField.add,
    ExtensionField.fromBase, ExtensionField.mk.injEq]
  exact ⟨trivial, (BaseField.add_zero_right hx1).symm,
    (BaseField.add_zero_right hx2).symm, (BaseField.add_zero_right hx3).symm⟩

theorem ExtensionField.subScalar_eq {x : ExtensionField} (hx : x.canon)
    (s : BaseField) : x.subScalar s = x.sub (ExtensionField.fromBase s) := by
  obtain ⟨hx0, hx1, hx2, hx3⟩ := hx
  simp only [ExtensionField.subScalar, ExtensionField.sub,
    ExtensionField.fromBase, ExtensionField.mk.injEq]
  exact ⟨trivial, (BaseField.sub_zero_right hx1).symm,
    (BaseField.sub_zero_right hx2).symm, (BaseField.sub_zero_right hx3).symm⟩

theorem ExtensionField.mulScalar_eq (x : ExtensionField) (s : BaseField) :
    x.mulScalar s = x.mul (ExtensionField.fromBase s) := by
  apply ExtensionField.toK4_inj
    ⟨BaseField.mul_canon _ _, BaseField.mul_canon _ _,
     BaseField.mul_canon _ _, BaseField.mul_canon _ _⟩
    (ExtensionField.mul_canon_ext _ _)
  rw [ExtensionField.toK4_mul, ExtensionField.fromBase_toK4]
  simp only [ExtensionField.toK4, ExtensionField.mulScalar, BaseField.toK_mul,
    emulK, caddK, cmulK, Prod.mk.injEq]
  refine ⟨⟨?_, ?_⟩, ?_, ?_⟩ <;> ring

theorem ExtensionField.divScalar_eq {s : BaseField} (hs : s.canon)
    (hsne : s ≠ BaseField.new 0) (x : ExtensionField) :
    x.divScalar s = x.div (ExtensionField.fromBase s) := by
  obtain ⟨r, hr, hrc, hrmul, _⟩ := BaseField.inverse_spec hs hsne
  have hse : ExtensionField.fromBase s ≠ ExtensionField.new 0 0 0 0 := by
    intro he
    exact hsne (congrArg ExtensionField.c0 he)
  obtain ⟨y, hy, hyc, hymul⟩ :=
    ExtensionField.inverse_spec_ext (ExtensionField.fromBase_canon hs) hse
  have hone := congrArg ExtensionField.toK4 hymul
  rw [ExtensionField.toK4_mul, ExtensionField.toK4_one,
    ExtensionField.fromBase_toK4] at hone
  have h00 := congrArg (fun t => t.1.1) hone
  have h01 := congrArg (fun t => t.1.2) hone
  have h10 := congrArg (fun t => t.2.1) hone
  have h11 := congrArg (fun t => t.2.2) hone
  simp only [emulK, caddK, cmulK, ExtensionField.toK4] at h00 h01 h10 h11
  have hy0 : y.c0.toK = r.toK := by
    linear_combination r.toK * h00 - y.c0.toK * hrmul
  have hy1 : y.c1.toK = 0 := by
    linear_combination r.toK * h01 - y.c1.toK * hrmul
  have hy2 : y.c2.toK = 0 := by
    linear_combination r.toK * h10 - y.c2.toK * hrmul
  have hy3 : y.c3.toK = 0 := by
    linear_combination r.toK * h11 - y.c3.toK * hrmul
  have hdiv : ∀ a : BaseField, a.div s = some (a.mul r) := by
    intro a
    rw [BaseField.div, hr]
    rfl
  rw [ExtensionField.div, hy]
  simp only [ExtensionField.divScalar, hdiv, Option.map_some']
  congr 1
  apply ExtensionField.toK4_inj
    ⟨BaseField.mul_canon _ _, BaseField.mul_canon _ _,
     BaseField.mul_canon _ _, BaseField.mul_canon _ _⟩
    (ExtensionField.mul_canon_ext _ _)
  rw [ExtensionField.toK4_mul]
  simp only [ExtensionField.toK4, BaseField.toK_mul, emulK, caddK, cmulK,
    hy0, hy1, hy2, hy3, Prod.mk.injEq]
  refine ⟨⟨?_, ?_⟩, ?_, ?_⟩ <;> ring

/-! ## Failure conditions -/

theorem BaseField.inverse_none_iff (a : BaseField) :
    a.inverse = none ↔ a = BaseField.new 0 := by
  by_cases h : a = BaseField.new 0 <;> simp [BaseField.inverse, h]

theorem BaseField.div_none_iff (a b : BaseField) :
    a.div b = none ↔ b = BaseField.new 0 := by
  by_cases h : b = BaseField.new 0 <;> simp [BaseField.div, BaseField.inverse, h]

theorem ExtensionField.inverse_none_iff_ext {x : ExtensionField} (hx : x.canon) :
    x.inverse = none ↔ x = ExtensionField.new 0 0 0 0 := by
  constructor
  · intro hn
    by_contra h
    obtain ⟨y, hy, _, _⟩ := ExtensionField.inverse_spec_ext hx h
    rw [hy] at hn
    exact Option.some_ne_none y hn
  · intro h
    rw [ExtensionField.inverse, if_pos h]

theorem ExtensionField.div_none_iff_ext (x : ExtensionField) {y : ExtensionField}
    (hy : y.canon) : x.div y = none ↔ y = ExtensionField.new 0 0 0 0 := by
  rw [ExtensionField.div, Option.map_eq_none',
    ExtensionField.inverse_none_iff_ext hy]

theorem ExtensionField.inverse_complex_none_iff {a b : BaseField}
    (ha : a.canon) (hb : b.canon) :
    ExtensionField.inverse_complex a b = none ↔ (a = ⟨0⟩ ∧ b = ⟨0⟩) := by
  constructor
  · intro hn
    by_contra h
    obtain ⟨p, hp, _⟩ := ExtensionField.inverse_complex_spec ha hb h
    rw [hp] at hn
    exact Option.some_ne_none p hn
  · intro h
    rw [ExtensionField.inverse_complex, if_pos h]

theorem ExtensionField.invDenom_ne_zero {x : ExtensionField} (hx : x.canon)
    (h : x ≠ ExtensionField.new 0 0 0 0) : x.invDenom ≠ (⟨0⟩, ⟨0⟩) := by
  obtain ⟨hx0, hx1, hx2, hx3⟩ := hx
  have hK : ¬(x.toK4.1 = ((0 : K), (0 : K)) ∧
      x.toK4.2 = ((0 : K), (0 : K))) := by
    intro hz
    apply h
    apply ExtensionField.toK4_inj ⟨hx0, hx1, hx2, hx3⟩
      (ExtensionField.new_canon_ext 0 0 0 0)
    rw [ExtensionField.toK4_zero]
    exact Prod.ext hz.1 hz.2
  intro hz
  apply denomK_ne_zero hK
  rw [← ExtensionField.invDenom_toK2, hz]
  simp [toK2, BaseField.toK]

/-! ## Claims -/

/-- C1: the claim says `neg(PrimeField 0)` returns the canonical element
`0` and never produces `P = 2147483647`.  The code computes
`PRIME - self.0` with no special case, so `-BaseField(0)` evaluates to
`BaseField(2147483647)`, the non-canonical value `P` — the claim fails on
the code at input `0`. -/
theorem neg_of_zero_is_prime :
    (BaseField.new 0).neg = ⟨PRIME⟩ ∧ (BaseField.new 0).neg ≠ BaseField.new 0 :=
  ⟨by decide, by decide⟩

/-- C2: the claim says every operation maps canonical inputs to canonical
results.  `neg` on the canonical input `0` produces the stored
representative `PRIME`, which does not lie in `[0, PRIME)` — the
invariant fails on the code at `neg(0)`. -/
theorem neg_zero_breaks_canonicality :
    (BaseField.new 0).canon ∧ ¬ (BaseField.new 0).neg.canon :=
  ⟨by decide, by decide⟩

/-- C3: for every canonical nonzero `a`, the hand-optimised addition
chain in `inverse` (squaring blocks {2,1,3,1,8,8,7}) returns exactly
`a^(PRIME-2)`, and `a * inverse(a) = 1`. -/
theorem inverse_chain_computes_pow (a : BaseField) (ha : a.canon)
    (hne : a ≠ BaseField.new 0) :
    a.inverse = some (a.pow (PRIME - 2)) ∧
      a.mul (a.pow (PRIME - 2)) = BaseField.new 1 := by
  obtain ⟨r, hr, hrc, hrmul, hrpow⟩ := BaseField.inverse_spec ha hne
  constructor
  · rw [hr, hrpow]
  · apply BaseField.toK_inj (BaseField.mul_canon _ _) (BaseField.new_canon 1)
    rw [BaseField.toK_mul, ← hrpow, hrmul, BaseField.toK_new]
    push_cast
    ring

theorem inverse_chain_computes_pow_witness :
    (BaseField.new 3).inverse = some ((BaseField.new 3).pow (PRIME - 2)) ∧
      (BaseField.new 3).mul ((BaseField.new 3).pow (PRIME - 2)) =
        BaseField.new 1 :=
  inverse_chain_computes_pow (BaseField.new 3) (by decide) (by decide)

/-- C4: for every canonical `x` that is not the all-zero tuple,
`inverse` succeeds and `x * inverse(x)` is the multiplicative identity
`(1,0,0,0)`. -/
theorem ext_inverse_round_trip (x : ExtensionField) (hx : x.canon)
    (hne : x ≠ ExtensionField.new 0 0 0 0) :
    ∃ y, x.inverse = some y ∧ x.mul y = ExtensionField.new 1 0 0 0 := by
  obtain ⟨y, hy, _, hmul⟩ := ExtensionField.inverse_spec_ext hx hne
  exact ⟨y, hy, hmul⟩

theorem ext_inverse_round_trip_witness :
    ∃ y, (ExtensionField.new 1 2 3 4).inverse = some y ∧
      (ExtensionField.new 1 2 3 4).mul y = ExtensionField.new 1 0 0 0 :=
  ext_inverse_round_trip (ExtensionField.new 1 2 3 4) (by decide) (by decide)

/-- C5: `mul` implements the tower formula with `j^2 = 2 + i`: the
real-complex part is `mul_complex(P,R) + mul_complex((2,1),
mul_complex(Q,S))`, the j-complex part is `mul_complex(P,S) +
mul_complex(Q,R)`; in particular
`(1,2,3,4) * (4,5,6,7) = (P-71, 93, P-16, 50)`. -/
theorem ext_mul_tower_formula :
    (∀ x y : ExtensionField,
      x.mul y =
        ⟨((ExtensionField.mul_complex (x.c0, x.c1) (y.c0, y.c1)).1).add
            ((ExtensionField.mul_complex (⟨2⟩, ⟨1⟩)
              (ExtensionField.mul_complex (x.c2, x.c3) (y.c2, y.c3))).1),
          ((ExtensionField.mul_complex (x.c0, x.c1) (y.c0, y.c1)).2).add
            ((ExtensionField.mul_complex (⟨2⟩, ⟨1⟩)
              (ExtensionField.mul_complex (x.c2, x.c3) (y.c2, y.c3))).2),
          ((ExtensionField.mul_complex (x.c0, x.c1) (y.c2, y.c3)).1).add
            ((ExtensionField.mul_complex (x.c2, x.c3) (y.c0, y.c1)).1),
          ((ExtensionField.mul_complex (x.c0, x.c1) (y.c2, y.c3)).2).add
            ((ExtensionField.mul_complex (x.c2, x.c3) (y.c0, y.c1)).2)⟩) ∧
    (ExtensionField.new 1 2 3 4).mul (ExtensionField.new 4 5 6 7) =
      ExtensionField.new (PRIME - 71) 93 (PRIME - 16) 50 :=
  ⟨fun x y => rfl, by decide⟩

/-- C6: division and inversion fail (assert, modelled as `none`) exactly
on zero divisors: `inverse`/`div` for `BaseField`, `inverse`/`div` for
`ExtensionField`, and `inverse_complex`, each return `none` iff the
divisor is the zero element of its type. -/
theorem zero_divisor_failures :
    (∀ a : BaseField, a.canon → (a.inverse = none ↔ a = BaseField.new 0)) ∧
    (∀ a b : BaseField, b.canon → (a.div b = none ↔ b = BaseField.new 0)) ∧
    (∀ x : ExtensionField, x.canon →
      (x.inverse = none ↔ x = ExtensionField.new 0 0 0 0)) ∧
    (∀ x y : ExtensionField, y.canon →
      (x.div y = none ↔ y = ExtensionField.new 0 0 0 0)) ∧
    (∀ a b : BaseField, a.canon → b.canon →
      (ExtensionField.inverse_complex a b = none ↔ (a = ⟨0⟩ ∧ b = ⟨0⟩))) :=
  ⟨fun a _ => BaseField.inverse_none_iff a,
   fun a b _ => BaseField.div_none_iff a b,
   fun _ hx => ExtensionField.inverse_none_iff_ext hx,
   fun x _ hy => ExtensionField.div_none_iff_ext x hy,
   fun _ _ ha hb => ExtensionField.inverse_complex_none_iff ha hb⟩

theorem zero_divisor_failures_witness :
    (BaseField.new 0).inverse = none ∧
      (ExtensionField.new 0 0 0 0).inverse = none ∧
      ExtensionField.inverse_complex (BaseField.new 3) (BaseField.new 4) ≠
        none := by
  refine ⟨?_, ?_, ?_⟩
  · exact (zero_divisor_failures.1 (BaseField.new 0) (by decide)).mpr (by decide)
  · exact (zero_divisor_failures.2.2.1 (ExtensionField.new 0 0 0 0)
      (by decide)).mpr (by decide)
  · intro hn
    have h := (zero_divisor_failures.2.2.2.2 (BaseField.new 3)
      (BaseField.new 4) (by decide) (by decide)).mp hn
    exact absurd h (by decide)

/-- C7: the scalar operations agree with full tower arithmetic on the
embedded scalar `(s,0,0,0)`: `x ⊕ s = x ⊕ (s,0,0,0)` for add, sub, mul,
and (for `s ≠ 0`) div. -/
theorem scalar_embedding_consistent (x : ExtensionField) (s : BaseField)
    (hx : x.canon) (hs : s.canon) :
    x.addScalar s = x.add (ExtensionField.fromBase s) ∧
    x.subScalar s = x.sub (ExtensionField.fromBase s) ∧
    x.mulScalar s = x.mul (ExtensionField.fromBase s) ∧
    (s ≠ BaseField.new 0 →
      x.divScalar s = x.div (ExtensionField.fromBase s)) :=
  ⟨ExtensionField.addScalar_eq hx s, ExtensionField.subScalar_eq hx s,
   ExtensionField.mulScalar_eq x s,
   fun hsne => ExtensionField.divScalar_eq hs hsne x⟩

theorem scalar_embedding_consistent_witness :
    (ExtensionField.new 1 2 3 4).addScalar (BaseField.new 8) =
        (ExtensionField.new 1 2 3 4).add
          (ExtensionField.fromBase (BaseField.new 8)) ∧
      (ExtensionField.new 1 2 3 4).subScalar (BaseField.new 8) =
        (ExtensionField.new 1 2 3 4).sub
          (ExtensionField.fromBase (BaseField.new 8)) ∧
      (ExtensionField.new 1 2 3 4).mulScalar (BaseField.new 8) =
        (ExtensionField.new 1 2 3 4).mul
          (ExtensionField.fromBase (BaseField.new 8)) ∧
      (ExtensionField.new 1 2 3 4).divScalar (BaseField.new 8) =
        (ExtensionField.new 1 2 3 4).div
          (ExtensionField.fromBase (BaseField.new 8)) := by
  have h := scalar_embedding_consistent (ExtensionField.new 1 2 3 4)
    (BaseField.new 8) (by decide) (by decide)
  exact ⟨h.1, h.2.1, h.2.2.1, h.2.2.2 (by decide)⟩

/-- C8: `pow(a, n)` equals the `n`-fold product of `a` starting from the
multiplicative identity, for both field types; in particular
`pow(a, 0) = 1` for every `a`. -/
theorem pow_eq_iterated_mul :
    (∀ (a : BaseField) (n : Nat), a.pow n = a.powIter n) ∧
    (∀ (x : ExtensionField) (n : Nat), x.pow n = x.powIter n) := by
  constructor
  · intro a n
    apply BaseField.toK_inj (BaseField.pow_canon a n)
      (BaseField.powIter_canon a n)
    rw [BaseField.pow_toK, BaseField.powIter_toK]
  · intro x n
    rw [ExtensionField.pow, ExtensionField.powAux_eq n n _ _ le_rfl
      (ExtensionField.new_canon_ext 1 0 0 0)]
    rw [ExtensionField.mul_comm_ext,
      ExtensionField.mul_one_ext (ExtensionField.powIter_canon_ext x n)]

/-- C9: for canonical `a, b`, the `u32` intermediates of `add`
(`a + b ≤ 2P - 2`) and `sub` (`a + P - b ≤ 2P - 1`, never negative)
neither overflow nor underflow, and the results are exactly
`(a + b) mod P` and `(a - b) mod P` (the latter stated over `ℤ`). -/
theorem add_sub_exact_in_u32 (a b : Nat) (ha : a < PRIME) (hb : b < PRIME) :
    a + b < U32SIZE ∧
    a + PRIME < U32SIZE ∧ b ≤ a + PRIME ∧
    BaseField.add ⟨a⟩ ⟨b⟩ = ⟨(a + b) % PRIME⟩ ∧
    BaseField.sub ⟨a⟩ ⟨b⟩ = ⟨(a + PRIME - b) % PRIME⟩ ∧
    ((a : Int) - (b : Int)) % ((PRIME : Nat) : Int) =
      ((BaseField.sub ⟨a⟩ ⟨b⟩).val : Int) := by
  have h3 : b ≤ a + PRIME := by omega
  have h4 : BaseField.add ⟨a⟩ ⟨b⟩ = ⟨(a + b) % PRIME⟩ := by
    simp only [BaseField.add, u32add, U32SIZE, PRIME, BaseField.mk.injEq] at *
    omega
  have h5 : BaseField.sub ⟨a⟩ ⟨b⟩ = ⟨(a + PRIME - b) % PRIME⟩ := by
    simp only [BaseField.sub, u32sub, u32add, U32SIZE, PRIME,
      BaseField.mk.injEq] at *
    omega
  refine ⟨by simp only [U32SIZE, PRIME] at *; omega,
    by simp only [U32SIZE, PRIME] at *; omega, h3, h4, h5, ?_⟩
  rw [h5]
  have hc : (((a + PRIME - b) % PRIME : Nat) : Int) =
      ((a : Int) + ((PRIME : Nat) : Int) - (b : Int)) % ((PRIME : Nat) : Int) := by
    push_cast [h3]
    ring_nf
  simp only [PRIME] at *
  rw [hc]
  omega

theorem add_sub_exact_in_u32_witness :
    5 + 7 < U32SIZE ∧
    5 + PRIME < U32SIZE ∧ 7 ≤ 5 + PRIME ∧
    BaseField.add ⟨5⟩ ⟨7⟩ = ⟨(5 + 7) % PRIME⟩ ∧
    BaseField.sub ⟨5⟩ ⟨7⟩ = ⟨(5 + PRIME - 7) % PRIME⟩ ∧
    ((5 : Int) - (7 : Int)) % ((PRIME : Nat) : Int) =
      ((BaseField.sub ⟨5⟩ ⟨7⟩).val : Int) :=
  add_sub_exact_in_u32 5 7 (by decide) (by decide)

/-- C10: for canonical `x ≠ (0,0,0,0)` the `denom` pair computed inside
`inverse` is never `(0, 0)`, so the inner `inverse_complex` assertion is
unreachable and `inverse` succeeds. -/
theorem invDenom_nonzero_on_nonzero (x : ExtensionField) (hx : x.canon)
    (hne : x ≠ ExtensionField.new 0 0 0 0) :
    x.invDenom ≠ ((⟨0⟩ : BaseField), (⟨0⟩ : BaseField)) ∧
      (x.inverse).isSome := by
  refine ⟨ExtensionField.invDenom_ne_zero hx hne, ?_⟩
  obtain ⟨y, hy, _, _⟩ := ExtensionField.inverse_spec_ext hx hne
  rw [hy]
  rfl

theorem invDenom_nonzero_on_nonzero_witness :
    (ExtensionField.new 1 2 3 4).invDenom ≠
        ((⟨0⟩ : BaseField), (⟨0⟩ : BaseField)) ∧
      ((ExtensionField.new 1 2 3 4).inverse).isSome :=
  invDenom_nonzero_on_nonzero (ExtensionField.new 1 2 3 4) (by decide)
    (by decide)
